import Mathlib

/-!
Verification of the copy engine in mbtool/util/copy.cpp (DualBootPatcher).

Each definition below is a shallow embedding of a function of that file;
syscall outcomes are supplied by explicit oracle parameters so that the
control flow of the C++ code can be reproduced exactly.  The depth-first
traversal engine (util/fts.cpp) is not part of the excerpt, so the walk
loops that drive the per-node hooks are modelled from the specification
of the hook contract; every such definition is marked in its doc comment.
-/

namespace MbCopy

/-! ### POSIX file mode constants (sys/stat.h values used by copy.cpp) -/

def S_IFMT : Nat := 0o170000
def S_IFSOCK : Nat := 0o140000
def S_IFLNK : Nat := 0o120000
def S_IFREG : Nat := 0o100000
def S_IFBLK : Nat := 0o060000
def S_IFDIR : Nat := 0o040000
def S_IFCHR : Nat := 0o020000
def S_IFIFO : Nat := 0o010000

def S_ISUID : Nat := 0o4000
def S_ISGID : Nat := 0o2000
def S_ISVTX : Nat := 0o1000
def S_IRWXU : Nat := 0o700
def S_IRWXG : Nat := 0o070
def S_IRWXO : Nat := 0o007

/-- Test of the symlink file type, as the S_ISLNK macro does. -/
def S_ISLNK (m : Nat) : Bool := m &&& S_IFMT = S_IFLNK

/-- Test of the directory file type, as the S_ISDIR macro does. -/
def S_ISDIR (m : Nat) : Bool := m &&& S_IFMT = S_IFDIR

/-- The permission-bit mask used by copy_stat:
S_ISUID | S_ISGID | S_ISVTX | S_IRWXU | S_IRWXG | S_IRWXO. -/
def permMask : Nat := S_ISUID ||| S_ISGID ||| S_ISVTX ||| S_IRWXU ||| S_IRWXG ||| S_IRWXO

/-- Result of an lstat or stat call: owner, group and full mode word. -/
structure FileStat where
  uid : Nat
  gid : Nat
  mode : Nat
deriving DecidableEq, Repr

/-! ### copy_stat (copy.cpp lines 185-208)

copy_stat lstats the source, lchowns the target with the uid and gid of
the source, and, when the mode of the SOURCE is not a symlink mode,
chmods the target with the permission bits of the source.  The syscalls
performed on the target are recorded as a list of actions. -/

/-- An action performed on the target path by copy_stat. -/
inductive StatAction
  | lchownA (uid gid : Nat)
  | chmodA (m : Nat)
deriving DecidableEq, Repr

/-- Shallow embedding of copy_stat.  The first argument is the result of
lstat on the source (none means the call failed); the two booleans say
whether the lchown and chmod syscalls succeed.  Returns the overall
result together with the list of actions attempted on the target, in
order. -/
def copy_stat (src : Option FileStat) (chownOk chmodOk : Bool) :
    Bool × List StatAction :=
  match src with
  | none => (false, [])
  | some sb =>
    if ¬ chownOk then
      (false, [StatAction.lchownA sb.uid sb.gid])
    else if ¬ S_ISLNK sb.mode then
      if ¬ chmodOk then
        (false, [StatAction.lchownA sb.uid sb.gid,
                 StatAction.chmodA (sb.mode &&& permMask)])
      else
        (true, [StatAction.lchownA sb.uid sb.gid,
                StatAction.chmodA (sb.mode &&& permMask)])
    else
      (true, [StatAction.lchownA sb.uid sb.gid])

/-- Whether a chmod action occurs in an action list. -/
def hasChmod : List StatAction → Bool
  | [] => false
  | StatAction.chmodA _ :: _ => true
  | _ :: rest => hasChmod rest

/-- The property claimed of copy_stat: ownership of the source is applied,
and the permission bits are applied exactly when the TARGET is not a
symlink.  (The code never inspects the target, so the quantification over
the target mode is what makes this claim refutable.) -/
def copyStatClaimC3 : Prop :=
  ∀ (src tgt : FileStat),
    StatAction.lchownA src.uid src.gid ∈ (copy_stat (some src) true true).2 ∧
    (hasChmod (copy_stat (some src) true true).2 = true ↔ S_ISLNK tgt.mode = false)

/-! ### copy_xattrs (copy.cpp lines 116-183)

copy_xattrs lists the extended-attribute names of the source with
llistxattr (twice: size query, then data), then for each non-empty name
fetches the value with lgetxattr (twice) and sets it on the target with
lsetxattr.  The syscall outcomes are oracles. -/

/-- Outcome of the pair of llistxattr calls on the source: the list of
names, ENOTSUP on the first call, another error on the first call, or an
error on the second call. -/
inductive ListXattrRes
  | lok (names : List String)
  | lnotsup
  | lerr
  | lerr2
deriving DecidableEq, Repr

/-- Outcome of the pair of lgetxattr calls on the source for one name:
the value, or an error on either call (the code treats both error sites
identically: log a warning and skip the attribute). -/
inductive GetXattrRes
  | gok (value : List Nat)
  | gerr
deriving DecidableEq, Repr

/-- Outcome of the lsetxattr call on the target for one name. -/
inductive SetXattrRes
  | sok
  | snotsup
  | serr
deriving DecidableEq, Repr

/-- The per-name loop of copy_xattrs.  Empty names are skipped; a fetch
failure skips the name; a set failure with ENOTSUP breaks out of the
loop and the function returns true; any other set failure returns
false. -/
def copy_xattrs_loop (get : String → GetXattrRes) (set_ : String → SetXattrRes) :
    List String → Bool
  | [] => true
  | n :: rest =>
    if n = "" then copy_xattrs_loop get set_ rest
    else
      match get n with
      | GetXattrRes.gerr => copy_xattrs_loop get set_ rest
      | GetXattrRes.gok _ =>
        match set_ n with
        | SetXattrRes.sok => copy_xattrs_loop get set_ rest
        | SetXattrRes.snotsup => true
        | SetXattrRes.serr => false

/-- Shallow embedding of copy_xattrs. -/
def copy_xattrs (lr : ListXattrRes) (get : String → GetXattrRes)
    (set_ : String → SetXattrRes) : Bool :=
  match lr with
  | ListXattrRes.lnotsup => true
  | ListXattrRes.lerr => false
  | ListXattrRes.lerr2 => false
  | ListXattrRes.lok names => copy_xattrs_loop get set_ names

/-! ### copy_data_fd (copy.cpp lines 44-69)

The byte-stream copier reads chunks of at most 10 KiB and flushes each
chunk completely, looping on partial writes, before reading the next
chunk.  Reads and writes are modelled by oracle traces: each read call
yields either an error or a chunk of bytes (an empty chunk is end of
stream), and each write call either fails or accepts some number of
bytes, capped at the number requested. -/

/-- Result of one read call: a chunk of bytes (empty means end of
stream) or an error. -/
inductive ReadResult
  | chunk (data : List Nat)
  | rerr
deriving DecidableEq, Repr

/-- Result of one write call: acceptance of n bytes (capped at the
requested amount) or an error. -/
inductive WriteResult
  | accept (n : Nat)
  | werr
deriving DecidableEq, Repr

/-- A write result that accepts at least one byte. -/
def isPosAccept : WriteResult → Bool
  | WriteResult.accept n => 0 < n
  | WriteResult.werr => false

/-- The inner do-while loop of copy_data_fd: flush one chunk, one write
call per iteration, until the chunk is exhausted.  Returns the remaining
write trace and the bytes handed to write, or none on a write error or
when the write trace runs out while bytes remain. -/
def flushChunk : List WriteResult → List Nat → Option (List WriteResult × List Nat)
  | ws, [] => some (ws, [])
  | [], _ :: _ => none
  | WriteResult.werr :: _, _ :: _ => none
  | WriteResult.accept n :: ws, c :: cs =>
    let k := min n (c :: cs).length
    match flushChunk ws ((c :: cs).drop k) with
    | none => none
    | some (ws', rest) => some (ws', (c :: cs).take k ++ rest)

/-- Shallow embedding of copy_data_fd.  The accumulator out holds the
bytes written to the target so far; success returns them all. -/
def copy_data_fd : List ReadResult → List WriteResult → List Nat → Option (List Nat)
  | [], _, _ => none
  | ReadResult.rerr :: _, _, _ => none
  | ReadResult.chunk [] :: _, _, out => some out
  | ReadResult.chunk (c :: cs) :: rs, ws, out =>
    match flushChunk ws (c :: cs) with
    | none => none
    | some (ws', written) => copy_data_fd rs ws' (out ++ written)

/-- The bytes of the source up to the first end-of-stream read, or none
when a read error or the end of the trace comes first. -/
def sourceUntilEOF : List ReadResult → Option (List Nat)
  | [] => none
  | ReadResult.rerr :: _ => none
  | ReadResult.chunk [] :: _ => some []
  | ReadResult.chunk (c :: cs) :: rs =>
    match sourceUntilEOF rs with
    | none => none
    | some bs => some ((c :: cs) ++ bs)

/-- Total number of source bytes before the first end-of-stream or
error read. -/
def sourceTotal : List ReadResult → Nat
  | [] => 0
  | ReadResult.rerr :: _ => 0
  | ReadResult.chunk [] :: _ => 0
  | ReadResult.chunk (c :: cs) :: rs => (c :: cs).length + sourceTotal rs

/-! ### readlink2 (copy.cpp lines 211-232)

readlink2 reads a symlink into a buffer that starts at 64 bytes; a read
that returns exactly bufsize - 1 bytes triggers a doubling of the buffer
and a re-read; a strictly smaller read is accepted.  The readlink
syscall on a link whose target has L bytes returns min L (bufsize - 1)
bytes, or an error; err says at which buffer sizes the syscall errors. -/

/-- The buffer-growing loop of readlink2, returning the accepted read
length.  The guard 0 < bufsize ∧ bufsize - 1 ≤ L is the C condition
len == bufsize - 1 for len = min L (bufsize - 1). -/
def readlink2_loop (err : Nat → Bool) (L : Nat) (bufsize : Nat) : Option Nat :=
  if err bufsize then none
  else if h : 0 < bufsize ∧ bufsize - 1 ≤ L then
    readlink2_loop err L (bufsize * 2)
  else
    some (min L (bufsize - 1))
termination_by L + 2 - bufsize
decreasing_by omega

/-- Shallow embedding of readlink2: the returned string is the prefix of
the link target of the accepted length. -/
def readlink2 (err : Nat → Bool) (target : List Nat) : Option (List Nat) :=
  (readlink2_loop err target.length 64).map (fun len => target.take len)

/-! ### copy_file (copy.cpp lines 263-361) and copy_data (lines 71-114)

copy_file saves the umask, sets it to 0, removes the target, stats the
source (stat when FOLLOW_SYMLINKS is set, lstat otherwise), dispatches
on the file type, optionally copies attributes and xattrs, and restores
the umask on both the success exit and the single error exit.  All
syscall outcomes are oracle fields of CopyFileWorld.  The umask is
threaded explicitly: the result pairs the boolean outcome with the umask
value in force after the call returns. -/

/-- The copy flags of copy.h (not in the excerpt); the spec defines them
as a bit-set of four independent options, modelled as four booleans. -/
structure CopyFlags where
  follow_symlinks : Bool
  preserve_attributes : Bool
  preserve_xattrs : Bool
  exclude_top_level : Bool
deriving DecidableEq, Repr

/-- Outcome of an unlink call: success, failure with ENOENT (treated as
success by the code), or failure with another error. -/
inductive UnlinkRes
  | uok
  | uenoent
  | uerr
deriving DecidableEq, Repr

/-- Syscall outcomes for one copy_file invocation. -/
structure CopyFileWorld where
  unlinkRes : UnlinkRes
  statRes : Option FileStat
  srcOpenOk : Bool
  targetExistsAtCreate : Bool
  createOpenOk : Bool
  dataCopyOk : Bool
  closeSrcOk : Bool
  closeTgtOk : Bool
  mknodOk : Bool
  mkfifoOk : Bool
  readlinkOk : Bool
  symlinkOk : Bool
  copyStatOk : Bool
  copyXattrsOk : Bool
deriving DecidableEq, Repr

/-- Shallow embedding of copy_data: open the source read-only, open the
target with O_WRONLY, O_CREAT and O_EXCL (which fails whenever an entry
exists at the target path at that moment), stream the bytes, close both
descriptors.  Returns the outcome together with a flag saying whether
anything was written to the target path. -/
def copy_data (w : CopyFileWorld) : Bool × Bool :=
  if ¬ w.srcOpenOk then (false, false)
  else if w.targetExistsAtCreate then (false, false)
  else if ¬ w.createOpenOk then (false, false)
  else if ¬ w.dataCopyOk then (false, true)
  else if ¬ w.closeSrcOk then (false, true)
  else if ¬ w.closeTgtOk then (false, true)
  else (true, true)

/-- The file-type bits of a mode word. -/
def fileTypePart (m : Nat) : Nat := m &&& S_IFMT

/-- Shallow embedding of copy_file.  m0 is the umask before the call;
the second component of the result is the umask after the call (every
exit of the C function runs umask(old_umask)). -/
def copy_file (m0 : Nat) (flags : CopyFlags) (w : CopyFileWorld) : Bool × Nat :=
  if w.unlinkRes = UnlinkRes.uerr then (false, m0)
  else
    match w.statRes with
    | none => (false, m0)
    | some sb =>
      let ft := fileTypePart sb.mode
      let finish : Bool × Nat :=
        if flags.preserve_attributes ∧ ¬ w.copyStatOk then (false, m0)
        else if flags.preserve_xattrs ∧ ¬ w.copyXattrsOk then (false, m0)
        else (true, m0)
      if ft = S_IFBLK then
        if w.mknodOk then finish else (false, m0)
      else if ft = S_IFCHR then
        if w.mknodOk then finish else (false, m0)
      else if ft = S_IFIFO then
        if w.mkfifoOk then finish else (false, m0)
      else if ft = S_IFLNK ∧ ¬ flags.follow_symlinks then
        if ¬ w.readlinkOk then (false, m0)
        else if ¬ w.symlinkOk then (false, m0)
        else finish
      else if ft = S_IFLNK ∨ ft = S_IFREG then
        if (copy_data w).1 then finish else (false, m0)
      else if ft = S_IFSOCK then (false, m0)
      else if ft = S_IFDIR then (false, m0)
      else finish

/-- Shallow embedding of copy_dir (copy.cpp lines 682-692) as far as the
umask is concerned: save the umask, set it to 0, run the recursive
copier, restore the umask, return the result of the run. -/
def copy_dir (m0 : Nat) (runRes : Bool) : Bool × Nat :=
  (runRes, m0)

/-! ### Target-path computation in on_changed_path (copy.cpp lines 418-438)

The hook clears the current target path, sets it to the target root,
appends a separator and the base name of the source root unless
EXCLUDE_TOP_LEVEL is set, appends a separator when one is needed before
a non-empty relative path that does not start with one, and finally
appends the relative path (fts_path plus the length of the source
path). -/

/-- Shallow embedding of the path computation of on_changed_path.
Strings are lists of characters; back() of the C++ string is modelled by
getLast?. -/
def computeTargetPath (target rootName relpath : List Char) (excludeTop : Bool) :
    List Char :=
  let t2 :=
    if ¬ excludeTop then
      (if target.getLast? ≠ some '/' then target ++ ['/'] else target) ++ rootName
    else target
  let t3 :=
    if t2.getLast? ≠ some '/' ∧ relpath.head? ≠ some '/' ∧ relpath ≠ [] then
      t2 ++ ['/']
    else t2
  t3 ++ relpath

/-- The non-empty slash-separated segments of a path, accumulator
form. -/
def segsAux : List Char → List Char → List (List Char)
  | cur, [] => if cur = [] then [] else [cur.reverse]
  | cur, c :: rest =>
    if c = '/' then
      if cur = [] then segsAux [] rest else cur.reverse :: segsAux [] rest
    else segsAux (c :: cur) rest

/-- The non-empty slash-separated segments of a path. -/
def segs (s : List Char) : List (List Char) := segsAux [] s

/-- Whether a string contains two consecutive slashes. -/
def hasDupSep : List Char → Bool
  | [] => false
  | [_] => false
  | a :: b :: rest =>
    if a = '/' ∧ b = '/' then true else hasDupSep (b :: rest)

/-! ### Self-copy guard in on_changed_path (copy.cpp lines 407-416) -/

/-- A device and inode pair, the identity used by the self-copy
guard. -/
structure DevIno where
  dev : Nat
  ino : Nat
deriving DecidableEq, Repr

/-- The action flags a hook returns to the traversal engine, FTS_Fail,
FTS_Stop and FTS_Skip of util/fts.h, which are combinable bit flags per
the hook contract; absence of all three is FTS_OK. -/
structure HookAction where
  fail : Bool
  stop : Bool
  skip : Bool
deriving DecidableEq, Repr

/-- Shallow embedding of the guard at the top of on_changed_path: when
the device and inode of the current node equal those recorded for the
target root, the hook returns FTS_Fail combined with FTS_Stop; otherwise
it proceeds (FTS_OK for this fragment). -/
def on_changed_path_guard (sbTarget node : DevIno) : HookAction :=
  if sbTarget = node then ⟨true, true, false⟩ else ⟨false, false, false⟩

/-- Modelled from the spec: the traversal engine of util/fts.cpp (not in
the excerpt) visits nodes in order, calls on_changed_path for each node
before processing it, aborts the whole walk as soon as a hook result
carries the stop flag, records failure on the fail flag, and otherwise
processes (copies) the node.  Returns the overall outcome and the list
of nodes that were processed. -/
def walkNodes (sbTarget : DevIno) : List DevIno → Bool × List DevIno
  | [] => (true, [])
  | n :: rest =>
    let a := on_changed_path_guard sbTarget n
    if a.stop then (false, [])
    else
      let r := walkNodes sbTarget rest
      (r.1 && !a.fail, n :: r.2)

/-! ### Error-message retention (copy.cpp lines 498-521 and 643-653)

Every failure site in the RecursiveCopier hooks assigns a fresh message
to the _error_msg field; the assignment is a plain overwrite.  The model
walks a list of file nodes through on_reached_file, with oracles for the
unlink step (remove_existing_file) and the data-copy step; the attribute
and xattr steps are taken to succeed. -/

/-- A visited file node: its computed target path and the outcomes of
the unlink and copy_data steps of on_reached_file. -/
structure FNode where
  path : List Char
  unlinkRes : UnlinkRes
  dataCopyOk : Bool
deriving DecidableEq, Repr

/-- The message assigned by remove_existing_file on an unlink failure
(copy.cpp line 647). -/
def removeMsg (path : List Char) : List Char :=
  path ++ (": Failed to remove old path".toList)

/-- The message assigned by on_reached_file on a copy_data failure
(copy.cpp line 506). -/
def dataMsg (path : List Char) : List Char :=
  path ++ (": Failed to copy data".toList)

/-- Shallow embedding of on_reached_file restricted to the unlink and
data-copy steps: each failure overwrites the error-message field and
returns FTS_Fail.  Takes and returns the current _error_msg value. -/
def on_reached_file (emsg : List Char) (n : FNode) : HookAction × List Char :=
  match n.unlinkRes with
  | UnlinkRes.uerr => (⟨true, false, false⟩, removeMsg n.path)
  | _ =>
    if ¬ n.dataCopyOk then (⟨true, false, false⟩, dataMsg n.path)
    else (⟨false, false, false⟩, emsg)

/-- Whether a node makes on_reached_file fail. -/
def nodeFails (n : FNode) : Bool :=
  decide (n.unlinkRes = UnlinkRes.uerr) || !n.dataCopyOk

/-- The message a failing node assigns. -/
def nodeMsg (n : FNode) : List Char :=
  match n.unlinkRes with
  | UnlinkRes.uerr => removeMsg n.path
  | _ => dataMsg n.path

/-- Modelled from the spec: the traversal engine calls on_reached_file
for each file node in order, records failure when the fail flag is set,
and continues with the next node (continue-on-error per the hook
contract).  Returns the overall outcome and the final _error_msg. -/
def walkFiles : List Char → List FNode → Bool × List Char
  | emsg, [] => (true, emsg)
  | emsg, n :: rest =>
    let r1 := on_reached_file emsg n
    let r2 := walkFiles r1.2 rest
    (r2.1 && !r1.1.fail, r2.2)

/-! ### Directory creation modes (copy.cpp lines 379-386, 449-457, 682-692)

copy_dir zeroes the umask for the whole call; on_pre_execute creates the
target root with mkdir(..., S_IRWXU | S_IRWXG | S_IRWXO) and
on_reached_directory_pre creates every subdirectory the same way; the
effective mode of a created directory is the requested mode with the
umask bits cleared.  cp_attrs chmods a directory only when
MB_COPY_ATTRIBUTES is set. -/

/-- The mode a file-creating syscall yields under a umask: the requested
bits with the umask bits cleared. -/
def applyUmask (mode um : Nat) : Nat := mode &&& (4095 ^^^ (um &&& 4095))

/-- A directory-mode-affecting operation performed at the target. -/
inductive DirOp
  | mkdirOp (mode : Nat)
  | chmodOp (mode : Nat)
deriving DecidableEq, Repr

/-- The mkdir of on_pre_execute (copy.cpp line 380), requested mode
S_IRWXU | S_IRWXG | S_IRWXO, under the umask in force. -/
def on_pre_execute_dirops (um : Nat) : List DirOp :=
  [DirOp.mkdirOp (applyUmask (S_IRWXU ||| S_IRWXG ||| S_IRWXO) um)]

/-- The mkdir of on_reached_directory_pre (copy.cpp line 450), same
requested mode, under the umask in force. -/
def dir_pre_dirops (um : Nat) : List DirOp :=
  [DirOp.mkdirOp (applyUmask (S_IRWXU ||| S_IRWXG ||| S_IRWXO) um)]

/-- The directory-mode operations of cp_attrs for a directory whose
source mode word is m: a chmod with the permission bits of the source
when MB_COPY_ATTRIBUTES is set (copy_stat, directory case), nothing
otherwise. -/
def dir_post_dirops (flags : CopyFlags) (m : Nat) : List DirOp :=
  if flags.preserve_attributes then [DirOp.chmodOp (m &&& permMask)] else []

/-- Modelled from the spec: copy_dir zeroes the umask, the engine runs
on_pre_execute once and then visits every directory of the tree with a
pre hook (mkdir) and a post hook (cp_attrs, then cp_xattrs which never
touches modes).  srcModes lists the source mode words of the visited
directories.  Returns every directory-mode operation performed at the
target, in order. -/
def copy_dir_dirops (flags : CopyFlags) (srcModes : List Nat) : List DirOp :=
  on_pre_execute_dirops 0 ++
    srcModes.flatMap (fun m => dir_pre_dirops 0 ++ dir_post_dirops flags m)

/-! ## Theorems -/

/-- C3 counterexample: the claim says the permission bits are applied if
and only if the target is not itself a symlink, but copy_stat tests the
mode of the SOURCE (copy.cpp line 199) and never inspects the target:
with a regular-file source and a symlink target the chmod is still
performed, refuting the claim. -/
theorem copy_stat_claim_counterexample : ¬ copyStatClaimC3 := by
  intro h
  have h2 := (h ⟨0, 0, 0o100644⟩ ⟨0, 0, 0o120777⟩).2
  have hl : hasChmod (copy_stat (some ⟨0, 0, 0o100644⟩) true true).2 = true := by decide
  have hr := h2.mp hl
  exact absurd hr (by decide)

/-- C3 (amended): copy_stat applies the ownership of the source with
lchown, and applies the permission bits (including set-uid, set-gid and
sticky) with chmod if and only if the SOURCE mode is not a symlink mode;
the target is never inspected. -/
theorem copy_stat_spec (sb : FileStat) :
    (copy_stat (some sb) true true).1 = true ∧
    StatAction.lchownA sb.uid sb.gid ∈ (copy_stat (some sb) true true).2 ∧
    (hasChmod (copy_stat (some sb) true true).2 = true ↔ S_ISLNK sb.mode = false) ∧
    (∀ m, StatAction.chmodA m ∈ (copy_stat (some sb) true true).2 →
      m = sb.mode &&& permMask) := by
  by_cases h : S_ISLNK sb.mode
  · simp [copy_stat, h, hasChmod]
  · simp only [Bool.not_eq_true] at h
    simp [copy_stat, h, hasChmod]

/-- C3 witness: the chmod is performed for a regular-file source. -/
theorem copy_stat_spec_witness :
    hasChmod (copy_stat (some ⟨1, 2, 0o100755⟩) true true).2 = true :=
  (copy_stat_spec ⟨1, 2, 0o100755⟩).2.2.1.mpr (by decide)

/-- C5: copy_xattrs succeeds as a no-op when listing reports ENOTSUP; a
fetch failure skips exactly that attribute and continues with the rest;
a set failure with ENOTSUP on the target stops the loop early and the
operation still succeeds; any other set failure makes the operation
fail. -/
theorem copy_xattrs_spec (get : String → GetXattrRes) (set_ : String → SetXattrRes) :
    (copy_xattrs ListXattrRes.lnotsup get set_ = true)
    ∧ (∀ n rest, n ≠ "" → get n = GetXattrRes.gerr →
        copy_xattrs (ListXattrRes.lok (n :: rest)) get set_ =
          copy_xattrs (ListXattrRes.lok rest) get set_)
    ∧ (∀ n rest v, n ≠ "" → get n = GetXattrRes.gok v →
        set_ n = SetXattrRes.snotsup →
        copy_xattrs (ListXattrRes.lok (n :: rest)) get set_ = true)
    ∧ (∀ n rest v, n ≠ "" → get n = GetXattrRes.gok v →
        set_ n = SetXattrRes.serr →
        copy_xattrs (ListXattrRes.lok (n :: rest)) get set_ = false) := by
  refine ⟨rfl, ?_, ?_, ?_⟩
  · intro n rest hn hget
    simp [copy_xattrs, copy_xattrs_loop, hn, hget]
  · intro n rest v hn hget hset
    simp [copy_xattrs, copy_xattrs_loop, hn, hget, hset]
  · intro n rest v hn hget hset
    simp [copy_xattrs, copy_xattrs_loop, hn, hget, hset]

/-- C5 witness: concrete oracles exercising the skip case. -/
theorem copy_xattrs_spec_witness :
    copy_xattrs (ListXattrRes.lok ["user.a"]) (fun _ => GetXattrRes.gerr)
        (fun _ => SetXattrRes.sok) =
      copy_xattrs (ListXattrRes.lok []) (fun _ => GetXattrRes.gerr)
        (fun _ => SetXattrRes.sok) :=
  (copy_xattrs_spec (fun _ => GetXattrRes.gerr) (fun _ => SetXattrRes.sok)).2.1
    "user.a" [] (by decide) rfl

/-- C8: both entry points restore the saved file-creation mask on every
exit path: whatever the oracle outcomes, the umask after copy_file and
after copy_dir equals the umask before the call. -/
theorem umask_restored (m0 : Nat) (flags : CopyFlags) (w : CopyFileWorld) :
    (copy_file m0 flags w).2 = m0 ∧ ∀ r : Bool, (copy_dir m0 r).2 = m0 := by
  constructor
  · unfold copy_file
    split
    · rfl
    split
    · rfl
    dsimp only
    repeat' split
    all_goals rfl
  · intro r; rfl

/-- C7: when the source is a regular file (or a symlink with
FOLLOW_SYMLINKS set) and an entry exists at the target path at the
moment of the exclusive create, nothing is written to the target and the
whole single-entry copy fails. -/
theorem copy_file_excl_create (m0 : Nat) (flags : CopyFlags) (w : CopyFileWorld)
    (sb : FileStat) (hstat : w.statRes = some sb)
    (hty : fileTypePart sb.mode = S_IFREG ∨
      (fileTypePart sb.mode = S_IFLNK ∧ flags.follow_symlinks = true))
    (hex : w.targetExistsAtCreate = true) :
    (copy_data w).2 = false ∧ copy_file m0 flags w = (false, m0) := by
  have hcd : copy_data w = (false, false) := by
    unfold copy_data
    rw [hex]
    by_cases hs : w.srcOpenOk <;> simp [hs]
  refine ⟨by rw [hcd], ?_⟩
  by_cases hu : w.unlinkRes = UnlinkRes.uerr
  · simp [copy_file, hu]
  · rcases hty with hr | ⟨hl, hf⟩
    · simp [copy_file, hu, hstat, hr, hcd,
        S_IFREG, S_IFBLK, S_IFCHR, S_IFIFO, S_IFLNK]
    · simp [copy_file, hu, hstat, hl, hf, hcd,
        S_IFREG, S_IFBLK, S_IFCHR, S_IFIFO, S_IFLNK]

/-- A concrete world for the C7 witness: regular-file source, an entry
present at the target at create time, everything else succeeding. -/
def exclWorld : CopyFileWorld :=
  ⟨UnlinkRes.uok, some ⟨0, 0, 0o100644⟩, true, true, true, true, true, true,
   true, true, true, true, true, true⟩

/-- C7 witness: the concrete world makes the copy fail without writing. -/
theorem copy_file_excl_create_witness :
    (copy_data exclWorld).2 = false ∧
    copy_file 18 ⟨false, false, false, false⟩ exclWorld = (false, 18) :=
  copy_file_excl_create 18 ⟨false, false, false, false⟩ exclWorld ⟨0, 0, 0o100644⟩
    rfl (Or.inl (by decide)) rfl

/-- C10: with PRESERVE_ATTRIBUTES unset, every directory-mode operation
of a recursive copy is a mkdir with permission bits 0777: copy_dir
zeroes the umask and both directory-creating hooks request 0777, and no
chmod is issued when attribute preservation is off. -/
theorem copy_dir_dirops_mode (flags : CopyFlags) (srcModes : List Nat)
    (h : flags.preserve_attributes = false) :
    ∀ op ∈ copy_dir_dirops flags srcModes, op = DirOp.mkdirOp 0o777 := by
  intro op hop
  unfold copy_dir_dirops on_pre_execute_dirops dir_pre_dirops dir_post_dirops at hop
  simp only [h, Bool.false_eq_true, if_false, List.mem_append, List.mem_flatMap,
    List.mem_singleton, List.append_nil] at hop
  have hm : applyUmask (S_IRWXU ||| S_IRWXG ||| S_IRWXO) 0 = 0o777 := by decide
  rcases hop with hop | ⟨m, _, hop⟩ <;> rw [hop, hm]

/-- C10 witness: concrete flags with attribute preservation off. -/
theorem copy_dir_dirops_mode_witness :
    DirOp.mkdirOp (applyUmask (S_IRWXU ||| S_IRWXG ||| S_IRWXO) 0) ∈
      copy_dir_dirops ⟨false, false, false, false⟩ [493] ∧
    DirOp.mkdirOp (applyUmask (S_IRWXU ||| S_IRWXG ||| S_IRWXO) 0) =
      DirOp.mkdirOp 0o777 :=
  ⟨by decide,
   copy_dir_dirops_mode ⟨false, false, false, false⟩ [493] rfl _ (by decide)⟩

/-- Characterization of the walk under the self-copy guard: if no node
has the identity of the target root the whole list is processed;
otherwise the walk fails and processes exactly the nodes before the
first offending one. -/
theorem walkNodes_char (sbT : DevIno) (ns : List DevIno) :
    walkNodes sbT ns =
      if ∀ n ∈ ns, n ≠ sbT then (true, ns)
      else (false, ns.takeWhile (fun n => n != sbT)) := by
  induction ns with
  | nil => simp [walkNodes]
  | cons n rest ih =>
    by_cases hn : n = sbT
    · have hg : on_changed_path_guard sbT n = ⟨true, true, false⟩ := by
        simp [on_changed_path_guard, hn]
      rw [walkNodes, hg]
      dsimp only
      rw [if_pos rfl, if_neg, List.takeWhile_cons]
      · simp [hn]
      · intro hall
        exact (hall n (by simp)) hn
    · have hg : on_changed_path_guard sbT n = ⟨false, false, false⟩ := by
        have : ¬ (sbT = n) := fun h => hn h.symm
        simp [on_changed_path_guard, this]
      rw [walkNodes, hg]
      dsimp only
      rw [if_neg (by simp), ih]
      by_cases hrest : ∀ m ∈ rest, m ≠ sbT
      · rw [if_pos hrest, if_pos (by simpa [hn] using hrest)]
        simp
      · rw [if_neg hrest, if_neg (by simp [hrest]), List.takeWhile_cons]
        simp [hn]

/-- C1: during a recursive copy, a node whose device and inode equal the
recorded identity of the target root makes the walk abort immediately
(the hook returns fail combined with stop, so only the nodes strictly
before it are processed), and no node with the identity of the target
root is ever copied. -/
theorem self_copy_guard_spec (sbT : DevIno) (ns : List DevIno) :
    (walkNodes sbT ns =
      if ∀ n ∈ ns, n ≠ sbT then (true, ns)
      else (false, ns.takeWhile (fun n => n != sbT)))
    ∧ ∀ m ∈ (walkNodes sbT ns).2, m ≠ sbT := by
  refine ⟨walkNodes_char sbT ns, ?_⟩
  rw [walkNodes_char sbT ns]
  split
  · next h => simpa using h
  · intro m hm
    simp only at hm
    have := List.mem_takeWhile_imp hm
    simpa using this

/-- C1 witness: a concrete walk hitting the guard at its second node. -/
theorem self_copy_guard_spec_witness :
    walkNodes ⟨1, 1⟩ [⟨2, 2⟩, ⟨1, 1⟩, ⟨3, 3⟩] = (false, [⟨2, 2⟩]) := by
  rw [(self_copy_guard_spec ⟨1, 1⟩ [⟨2, 2⟩, ⟨1, 1⟩, ⟨3, 3⟩]).1]
  decide

/-- Concrete node whose unlink step fails. -/
def fnodeA : FNode := ⟨['a'], UnlinkRes.uerr, true⟩

/-- Concrete node whose data-copy step fails. -/
def fnodeB : FNode := ⟨['b'], UnlinkRes.uok, false⟩

/-- C4 counterexample: with two failing nodes, the message retained at
the end of the walk is the message of the SECOND failure, not the first:
every failure site overwrites the _error_msg field. -/
theorem error_msg_counterexample :
    nodeFails fnodeA = true ∧ nodeFails fnodeB = true ∧
    (walkFiles [] [fnodeA, fnodeB]).2 = dataMsg ['b'] ∧
    (walkFiles [] [fnodeA, fnodeB]).2 ≠ removeMsg ['a'] := by decide

/-- A non-failing node leaves the message field unchanged. -/
theorem on_reached_file_msg_ok (emsg : List Char) (n : FNode)
    (h : nodeFails n = false) : (on_reached_file emsg n).2 = emsg := by
  unfold on_reached_file
  unfold nodeFails at h
  rcases hu : n.unlinkRes with _ | _ | _ <;> rw [hu] at h <;> simp_all

/-- A failing node overwrites the message field with its own message. -/
theorem on_reached_file_msg_fail (emsg : List Char) (n : FNode)
    (h : nodeFails n = true) : (on_reached_file emsg n).2 = nodeMsg n := by
  unfold on_reached_file nodeMsg
  unfold nodeFails at h
  rcases hu : n.unlinkRes with _ | _ | _ <;> rw [hu] at h <;> simp_all

/-- A walk over non-failing nodes leaves the message field unchanged. -/
theorem walkFiles_msg_ok (ys : List FNode) :
    ∀ emsg, (∀ m ∈ ys, nodeFails m = false) → (walkFiles emsg ys).2 = emsg := by
  induction ys with
  | nil => intro emsg _; rfl
  | cons y ys ih =>
    intro emsg h
    show (walkFiles (on_reached_file emsg y).2 ys).2 = emsg
    rw [ih _ (fun m hm => h m (by simp [hm])),
      on_reached_file_msg_ok emsg y (h y (by simp))]

/-- C4 (amended): the error message retained at the end of the walk is
the message of the LAST failing node; later per-node failures replace
earlier messages. -/
theorem error_msg_last (xs : List FNode) (n : FNode) (ys : List FNode)
    (emsg : List Char) (hn : nodeFails n = true)
    (hys : ∀ m ∈ ys, nodeFails m = false) :
    (walkFiles emsg (xs ++ n :: ys)).2 = nodeMsg n := by
  induction xs generalizing emsg with
  | nil =>
    show (walkFiles (on_reached_file emsg n).2 ys).2 = nodeMsg n
    rw [walkFiles_msg_ok ys _ hys, on_reached_file_msg_fail emsg n hn]
  | cons x xs ih =>
    show (walkFiles (on_reached_file emsg x).2 (xs ++ n :: ys)).2 = nodeMsg n
    exact ih _

/-- C4 witness: the concrete two-failure walk retains the last
message. -/
theorem error_msg_last_witness :
    (walkFiles [] ([fnodeA] ++ fnodeB :: [])).2 = nodeMsg fnodeB :=
  error_msg_last [fnodeA] fnodeB [] [] (by decide) (by decide)

/-- A successful flush hands exactly the chunk to write, in order, even
when individual writes accept fewer bytes than requested. -/
theorem flushChunk_eq_chunk (ws : List WriteResult) :
    ∀ (c : List Nat) ws' written,
      flushChunk ws c = some (ws', written) → written = c := by
  induction ws with
  | nil =>
    intro c ws' written h
    cases c with
    | nil => simp [flushChunk] at h; exact h.2
    | cons a as => simp [flushChunk] at h
  | cons w ws ih =>
    intro c ws' written h
    cases c with
    | nil => simp [flushChunk] at h; exact h.2
    | cons a as =>
      cases w with
      | werr => simp [flushChunk] at h
      | accept n =>
        simp only [flushChunk] at h
        rcases hh : flushChunk ws ((a :: as).drop (min n (a :: as).length)) with
          _ | ⟨ws2, rest⟩
        · rw [hh] at h; simp at h
        · rw [hh] at h
          simp only [Option.some.injEq, Prod.mk.injEq] at h
          rw [← h.2, ih _ _ _ hh, List.take_append_drop]

/-- When every write accepts at least one byte and the write trace is at
least as long as the chunk, the flush succeeds and consumes at most one
write per byte. -/
theorem flushChunk_complete (ws : List WriteResult) :
    ∀ (c : List Nat), (∀ r ∈ ws, isPosAccept r = true) → c.length ≤ ws.length →
      ∃ j, j ≤ c.length ∧ flushChunk ws c = some (ws.drop j, c) := by
  induction ws with
  | nil =>
    intro c _ hlen
    have hc : c = [] := List.eq_nil_of_length_eq_zero (Nat.le_zero.mp hlen)
    subst hc
    exact ⟨0, Nat.le_refl 0, by simp [flushChunk]⟩
  | cons w ws ih =>
    intro c hall hlen
    cases c with
    | nil => exact ⟨0, Nat.le_refl 0, by simp [flushChunk]⟩
    | cons a as =>
      have hw := hall w (by simp)
      cases w with
      | werr => simp [isPosAccept] at hw
      | accept n =>
        have hn : 0 < n := by simpa [isPosAccept] using hw
        have hk1 : 1 ≤ min n (a :: as).length := by
          simp [Nat.le_min]; omega
        have hdl : ((a :: as).drop (min n (a :: as).length)).length ≤ ws.length := by
          simp only [List.length_drop, List.length_cons] at *
          omega
        obtain ⟨j, hj, heq⟩ :=
          ih ((a :: as).drop (min n (a :: as).length))
            (fun r hr => hall r (by simp [hr])) hdl
        refine ⟨j + 1, ?_, ?_⟩
        · simp only [List.length_drop, List.length_cons] at hj ⊢
          omega
        · simp only [flushChunk]
          rw [heq]
          simp [List.take_append_drop]

/-- Soundness of the byte-stream copier: success implies the source
reached end of stream with no read error and the output extends the
accumulator with exactly the source bytes, in order. -/
theorem copy_data_fd_sound (rs : List ReadResult) :
    ∀ (ws : List WriteResult) (out w : List Nat),
      copy_data_fd rs ws out = some w →
      ∃ bs, sourceUntilEOF rs = some bs ∧ w = out ++ bs := by
  induction rs with
  | nil => intro ws out w h; simp [copy_data_fd] at h
  | cons r rs ih =>
    intro ws out w h
    cases r with
    | rerr => simp [copy_data_fd] at h
    | chunk data =>
      cases data with
      | nil =>
        simp [copy_data_fd] at h
        exact ⟨[], by simp [sourceUntilEOF], by simp [h]⟩
      | cons c cs =>
        simp only [copy_data_fd] at h
        rcases hf : flushChunk ws (c :: cs) with _ | ⟨ws', written⟩
        · rw [hf] at h; simp at h
        · rw [hf] at h
          dsimp only at h
          obtain ⟨bs, hs, hw⟩ := ih _ _ _ h
          have hwr := flushChunk_eq_chunk ws _ _ _ hf
          subst hwr
          exact ⟨(c :: cs) ++ bs, by simp [sourceUntilEOF, hs],
            by simp [hw, List.append_assoc]⟩

/-- Completeness of the byte-stream copier: with progressing writes and
a long enough write trace, the copier returns exactly the source bytes
up to end of stream, and fails exactly when reading fails. -/
theorem copy_data_fd_complete (rs : List ReadResult) :
    ∀ (ws : List WriteResult) (out : List Nat),
      (∀ r ∈ ws, isPosAccept r = true) → sourceTotal rs ≤ ws.length →
      copy_data_fd rs ws out = (sourceUntilEOF rs).map (fun bs => out ++ bs) := by
  induction rs with
  | nil => intro ws out _ _; simp [copy_data_fd, sourceUntilEOF]
  | cons r rs ih =>
    intro ws out h1 h2
    cases r with
    | rerr => simp [copy_data_fd, sourceUntilEOF]
    | chunk data =>
      cases data with
      | nil => simp [copy_data_fd, sourceUntilEOF]
      | cons c cs =>
        have hlen : (c :: cs).length ≤ ws.length := by
          simp only [sourceTotal] at h2
          omega
        obtain ⟨j, hj, heq⟩ := flushChunk_complete ws (c :: cs) h1 hlen
        simp only [copy_data_fd]
        rw [heq]
        dsimp only
        rw [ih (ws.drop j) (out ++ c :: cs)
          (fun r hr => h1 r (List.mem_of_mem_drop hr))
          (by simp only [sourceTotal] at h2
              simp only [List.length_drop]
              omega)]
        cases hse : sourceUntilEOF rs <;>
          simp [sourceUntilEOF, hse, List.append_assoc]

/-- C6: the byte-stream copier flushes each chunk fully before the next
read, looping on partial writes; on success the destination receives
exactly the source bytes in order; and, when writes make progress and
the trace suffices, the copier succeeds if and only if the source
reaches end of stream with no read error. -/
theorem copy_data_fd_spec (rs : List ReadResult) (ws : List WriteResult) :
    (∀ w, copy_data_fd rs ws [] = some w → sourceUntilEOF rs = some w)
    ∧ ((∀ r ∈ ws, isPosAccept r = true) → sourceTotal rs ≤ ws.length →
        copy_data_fd rs ws [] = sourceUntilEOF rs) := by
  constructor
  · intro w h
    obtain ⟨bs, hs, hw⟩ := copy_data_fd_sound rs ws [] w h
    simp [hw, hs]
  · intro h1 h2
    rw [copy_data_fd_complete rs ws [] h1 h2]
    cases sourceUntilEOF rs <;> simp

/-- C6 witness: a three-byte source flushed through partial writes. -/
theorem copy_data_fd_spec_witness :
    copy_data_fd [ReadResult.chunk [1, 2, 3], ReadResult.chunk []]
      [WriteResult.accept 2, WriteResult.accept 5, WriteResult.accept 7] []
      = some [1, 2, 3] := by
  rw [(copy_data_fd_spec [ReadResult.chunk [1, 2, 3], ReadResult.chunk []]
    [WriteResult.accept 2, WriteResult.accept 5, WriteResult.accept 7]).2
    (by decide) (by decide)]
  decide

/-- A successful run of the readlink2 loop always returns the full
target length: a read that exactly fills the available space triggers a
regrow instead of being accepted. -/
theorem readlink2_loop_sound (err : Nat → Bool) (L : Nat) :
    ∀ fuel b r, L + 2 - b ≤ fuel → 0 < b →
      readlink2_loop err L b = some r → r = L := by
  intro fuel
  induction fuel with
  | zero =>
    intro b r hb hpos h
    rw [readlink2_loop.eq_def] at h
    by_cases he : err b = true
    · rw [if_pos he] at h; exact absurd h (by simp)
    · have hc : ¬ (0 < b ∧ b - 1 ≤ L) := by omega
      rw [if_neg he, dif_neg hc] at h
      have hm := Option.some.inj h
      omega
  | succ fuel ih =>
    intro b r hb hpos h
    rw [readlink2_loop.eq_def] at h
    by_cases he : err b = true
    · rw [if_pos he] at h; exact absurd h (by simp)
    · by_cases hc : 0 < b ∧ b - 1 ≤ L
      · rw [if_neg he, dif_pos hc] at h
        exact ih (b * 2) r (by omega) (by omega) h
      · rw [if_neg he, dif_neg hc] at h
        have hm := Option.some.inj h
        omega

/-- With no read errors the readlink2 loop terminates with the full
target length, doubling the buffer as needed. -/
theorem readlink2_loop_complete (err : Nat → Bool) (L : Nat)
    (hne : ∀ s, err s = false) :
    ∀ fuel b, L + 2 - b ≤ fuel → 0 < b →
      readlink2_loop err L b = some L := by
  intro fuel
  induction fuel with
  | zero =>
    intro b hb hpos
    rw [readlink2_loop.eq_def]
    have hc : ¬ (0 < b ∧ b - 1 ≤ L) := by omega
    rw [if_neg (by simp [hne b]), dif_neg hc]
    have hm : min L (b - 1) = L := by omega
    rw [hm]
  | succ fuel ih =>
    intro b hb hpos
    rw [readlink2_loop.eq_def]
    by_cases hc : 0 < b ∧ b - 1 ≤ L
    · rw [if_neg (by simp [hne b]), dif_pos hc]
      exact ih (b * 2) (by omega) (by omega)
    · rw [if_neg (by simp [hne b]), dif_neg hc]
      have hm : min L (b - 1) = L := by omega
      rw [hm]

/-- C9: when every read succeeds, readlink2 returns the complete link
target; whenever it succeeds, the returned string is the complete
target, never a truncation; and a read error makes it fail. -/
theorem readlink2_spec (err : Nat → Bool) (target : List Nat) :
    ((∀ s, err s = false) → readlink2 err target = some target)
    ∧ (∀ r, readlink2 err target = some r → r = target)
    ∧ (err 64 = true → readlink2 err target = none) := by
  refine ⟨?_, ?_, ?_⟩
  · intro hne
    unfold readlink2
    rw [readlink2_loop_complete err target.length hne (target.length + 2) 64
      (by omega) (by omega)]
    simp
  · intro r h
    unfold readlink2 at h
    rcases hl : readlink2_loop err target.length 64 with _ | len
    · rw [hl] at h; simp at h
    · rw [hl] at h
      simp only [Option.map_some', Option.some.injEq] at h
      have hlen := readlink2_loop_sound err target.length
        (target.length + 2) 64 len (by omega) (by omega) hl
      rw [← h, hlen, List.take_length]
  · intro he
    unfold readlink2
    rw [readlink2_loop.eq_def, if_pos he]
    rfl

/-- C9 witness: an error-free three-byte link target is returned in
full. -/
theorem readlink2_spec_witness :
    readlink2 (fun _ => false) [5, 6, 7] = some [5, 6, 7] :=
  (readlink2_spec (fun _ => false) [5, 6, 7]).1 (fun _ => rfl)

/-- Splitting at a separator distributes segsAux over an append. -/
theorem segsAux_append_slash (x y : List Char) :
    ∀ cur, segsAux cur (x ++ '/' :: y) = segsAux cur x ++ segsAux [] y := by
  induction x with
  | nil =>
    intro cur
    by_cases h : cur = [] <;> simp [segsAux, h]
  | cons c x ih =>
    intro cur
    by_cases hc : c = '/'
    · subst hc
      by_cases h : cur = [] <;> simp [segsAux, h, ih]
    · simp [segsAux, hc, ih]

/-- The segments of an append whose right part starts at a separator. -/
theorem segs_append_slash (x y : List Char) :
    segs (x ++ '/' :: y) = segs x ++ segs y := by
  unfold segs
  rw [segsAux_append_slash]

/-- A leading separator contributes no segment. -/
theorem segs_slash_cons (y : List Char) : segs ('/' :: y) = segs y := by
  have h := segs_append_slash [] y
  simpa using h

/-- A trailing separator contributes no segment. -/
theorem segs_append_slash_nil (x : List Char) : segs (x ++ ['/']) = segs x := by
  have h := segs_append_slash x []
  simpa [segs, segsAux] using h

/-- segsAux on a separator-free string accumulates one segment. -/
theorem segsAux_no_slash (x : List Char) (h : ∀ c ∈ x, c ≠ '/') :
    ∀ cur, segsAux cur x =
      if cur.reverse ++ x = [] then [] else [cur.reverse ++ x] := by
  induction x with
  | nil =>
    intro cur
    by_cases hc : cur = [] <;> simp [segsAux, hc]
  | cons c x ih =>
    intro cur
    have hc : c ≠ '/' := h c (by simp)
    rw [segsAux]
    rw [if_neg hc]
    rw [ih (fun d hd => h d (by simp [hd]))]
    simp

/-- A non-empty separator-free string is a single segment. -/
theorem segs_no_slash (x : List Char) (hx : x ≠ []) (h : ∀ c ∈ x, c ≠ '/') :
    segs x = [x] := by
  unfold segs
  rw [segsAux_no_slash x h []]
  simp [hx]

/-- A string ending in a separator decomposes as a prefix plus the
separator. -/
theorem exists_append_slash (l : List Char) (h : l.getLast? = some '/') :
    ∃ u, l = u ++ ['/'] := by
  induction l with
  | nil => simp at h
  | cons a l ih =>
    cases l with
    | nil =>
      simp [List.getLast?] at h
      exact ⟨[], by simp [h]⟩
    | cons b m =>
      rw [List.getLast?_cons_cons] at h
      obtain ⟨u, hu⟩ := ih h
      exact ⟨a :: u, by simp [hu]⟩

/-- The final joining step of the path computation is segment-exact for
every shape of the relative path. -/
theorem segs_join_step (t2 relpath : List Char) :
    segs ((if t2.getLast? ≠ some '/' ∧ relpath.head? ≠ some '/' ∧ relpath ≠ []
        then t2 ++ ['/'] else t2) ++ relpath) = segs t2 ++ segs relpath := by
  cases relpath with
  | nil => simp [segs, segsAux]
  | cons c rp =>
    by_cases hc : c = '/'
    · subst hc
      rw [if_neg (by simp)]
      rw [segs_append_slash, segs_slash_cons]
    · by_cases ht : t2.getLast? = some '/'
      · rw [if_neg (by simp [ht])]
        obtain ⟨u, hu⟩ := exists_append_slash t2 ht
        subst hu
        rw [List.append_assoc, List.singleton_append, segs_append_slash,
          segs_append_slash_nil]
      · rw [if_pos ⟨ht, by simp [hc], by simp⟩]
        rw [List.append_assoc, List.singleton_append, segs_append_slash]

/-- Inserting the source-root base name under the target root adds
exactly one segment. -/
theorem segs_insert_root (target rootName : List Char)
    (hr : rootName ≠ []) (hs : ∀ c ∈ rootName, c ≠ '/') :
    segs ((if target.getLast? ≠ some '/' then target ++ ['/'] else target)
        ++ rootName) = segs target ++ [rootName] := by
  by_cases ht : target.getLast? = some '/'
  · rw [if_neg (by simp [ht])]
    obtain ⟨u, hu⟩ := exists_append_slash target ht
    subst hu
    rw [List.append_assoc, List.singleton_append, segs_append_slash,
      segs_append_slash_nil, segs_no_slash rootName hr hs]
  · rw [if_pos ht]
    rw [List.append_assoc, List.singleton_append, segs_append_slash,
      segs_no_slash rootName hr hs]

/-- Duplicate separators in an append come from a part or from the
boundary. -/
theorem hasDupSep_append (x y : List Char) :
    hasDupSep (x ++ y) = true ↔
      hasDupSep x = true ∨ hasDupSep y = true ∨
        (x.getLast? = some '/' ∧ y.head? = some '/') := by
  induction x with
  | nil => simp [hasDupSep]
  | cons a x ih =>
    cases x with
    | nil =>
      cases y with
      | nil => simp [hasDupSep]
      | cons b yy =>
        by_cases hab : a = '/' ∧ b = '/'
        · simp [hasDupSep, hab, List.getLast?, hab.1, hab.2]
        · rw [List.singleton_append]
          rw [show hasDupSep (a :: b :: yy) = hasDupSep (b :: yy) from by
            simp [hasDupSep, hab]]
          simp [hasDupSep, List.getLast?]
          tauto
    | cons b xx =>
      by_cases hab : a = '/' ∧ b = '/'
      · simp [hasDupSep, hab, List.getLast?_cons_cons]
      · rw [List.cons_append]
        rw [show hasDupSep (a :: (b :: xx ++ y)) = hasDupSep (b :: xx ++ y) from by
          simp [hasDupSep, hab]]
        rw [show hasDupSep (a :: b :: xx) = hasDupSep (b :: xx) from by
          simp [hasDupSep, hab]]
        rw [List.getLast?_cons_cons]
        exact ih

/-- A separator-free string has no duplicate separators. -/
theorem hasDupSep_no_slash (x : List Char) (h : ∀ c ∈ x, c ≠ '/') :
    hasDupSep x = false := by
  induction x with
  | nil => rfl
  | cons a x ih =>
    cases x with
    | nil => rfl
    | cons b xx =>
      have ha : a ≠ '/' := h a (by simp)
      have hcond : ¬ (a = '/' ∧ b = '/') := fun hh => ha hh.1
      rw [show hasDupSep (a :: b :: xx) = hasDupSep (b :: xx) from by
        simp only [hasDupSep]
        rw [if_neg hcond]]
      exact ih (fun c hc => h c (by simp at hc ⊢; tauto))

/-- The last character of a string is one of its characters. -/
theorem mem_of_getLast_some {a : Char} (l : List Char) (h : l.getLast? = some a) :
    a ∈ l := by
  induction l with
  | nil => simp at h
  | cons b m ih =>
    cases m with
    | nil =>
      simp [List.getLast?] at h
      simp [h]
    | cons c mm =>
      rw [List.getLast?_cons_cons] at h
      simp [ih h]

/-- A separator-free string does not start with a separator. -/
theorem head_ne_slash (rootName : List Char) (hs : ∀ c ∈ rootName, c ≠ '/') :
    rootName.head? ≠ some '/' := by
  cases rootName with
  | nil => simp
  | cons c l =>
    simp only [List.head?_cons, ne_eq, Option.some.injEq]
    exact fun h => hs c (by simp) h

/-- Appending a separator avoids a duplicate when the left part does not
already end in one. -/
theorem hasDupSep_append_slash (t2 : List Char)
    (h2 : hasDupSep t2 = false) (hl : t2.getLast? ≠ some '/') :
    hasDupSep (t2 ++ ['/']) = false := by
  rw [Bool.eq_false_iff]
  rw [ne_eq, hasDupSep_append]
  rintro (h | h | ⟨h1, _⟩)
  · rw [h2] at h; exact Bool.false_ne_true h
  · exact Bool.false_ne_true h.symm.symm
  · exact hl h1

/-- The final joining step of the path computation introduces no
duplicate separator when the boundary is clean. -/
theorem hasDupSep_join_step (t2 relpath : List Char)
    (h2 : hasDupSep t2 = false) (hR : hasDupSep relpath = false)
    (hok : ¬ (t2.getLast? = some '/' ∧ relpath.head? = some '/')) :
    hasDupSep ((if t2.getLast? ≠ some '/' ∧ relpath.head? ≠ some '/' ∧ relpath ≠ []
        then t2 ++ ['/'] else t2) ++ relpath) = false := by
  by_cases hcond : t2.getLast? ≠ some '/' ∧ relpath.head? ≠ some '/' ∧ relpath ≠ []
  · rw [if_pos hcond]
    rw [Bool.eq_false_iff, ne_eq, hasDupSep_append]
    rintro (h | h | ⟨h1, hh⟩)
    · rw [hasDupSep_append_slash t2 h2 hcond.1] at h
      exact Bool.false_ne_true h
    · rw [hR] at h; exact Bool.false_ne_true h
    · exact hcond.2.1 hh
  · rw [if_neg hcond]
    rw [Bool.eq_false_iff, ne_eq, hasDupSep_append]
    rintro (h | h | hh)
    · rw [h2] at h; exact Bool.false_ne_true h
    · rw [hR] at h; exact Bool.false_ne_true h
    · exact hok hh

/-- After inserting a separator-free base name, the path does not end in
a separator. -/
theorem insert_root_getLast (target rootName : List Char)
    (hr : rootName ≠ []) (hs : ∀ c ∈ rootName, c ≠ '/') :
    ((if target.getLast? ≠ some '/' then target ++ ['/'] else target)
      ++ rootName).getLast? ≠ some '/' := by
  rw [List.getLast?_append_of_ne_nil _ hr]
  exact fun h => hs '/' (mem_of_getLast_some rootName h) rfl

/-- Inserting a separator-free base name introduces no duplicate
separator. -/
theorem insert_root_dup (target rootName : List Char)
    (hT : hasDupSep target = false) (hs : ∀ c ∈ rootName, c ≠ '/') :
    hasDupSep ((if target.getLast? ≠ some '/' then target ++ ['/'] else target)
      ++ rootName) = false := by
  have hhead := head_ne_slash rootName hs
  by_cases ht : target.getLast? = some '/'
  · rw [if_neg (by simp [ht])]
    rw [Bool.eq_false_iff, ne_eq, hasDupSep_append]
    rintro (h | h | ⟨_, hh⟩)
    · rw [hT] at h; exact Bool.false_ne_true h
    · rw [hasDupSep_no_slash rootName hs] at h; exact Bool.false_ne_true h
    · exact hhead hh
  · rw [if_pos ht]
    rw [Bool.eq_false_iff, ne_eq, hasDupSep_append]
    rintro (h | h | ⟨_, hh⟩)
    · rw [hasDupSep_append_slash target hT ht] at h; exact Bool.false_ne_true h
    · rw [hasDupSep_no_slash rootName hs] at h; exact Bool.false_ne_true h
    · exact hhead hh

/-- C2 counterexample: with EXCLUDE_TOP_LEVEL set, a target root that
ends in a separator and a relative path that starts with one, the join
produces a duplicate separator, refuting the no-duplicate-separator part
of the claim. -/
theorem computeTargetPath_claim_counterexample :
    computeTargetPath ['/', 'b', '/'] ['a'] ['/', 'f'] true
      = ['/', 'b', '/', '/', 'f'] ∧
    hasDupSep (computeTargetPath ['/', 'b', '/'] ['a'] ['/', 'f'] true) = true := by
  decide

/-- C2 (amended): the computed target path always consists of exactly
the segments of the target root, then the source-root base name exactly
when EXCLUDE_TOP_LEVEL is not set, then the segments of the relative
path; and the join introduces no duplicate separator EXCEPT in the case
where EXCLUDE_TOP_LEVEL is set, the target root ends in a separator and
the relative path starts with one (the counterexample case, excluded by
the last hypothesis). -/
theorem computeTargetPath_spec (target rootName relpath : List Char) (ex : Bool)
    (_htne : target ≠ [])
    (hr : rootName ≠ []) (hs : ∀ c ∈ rootName, c ≠ '/')
    (hT : hasDupSep target = false)
    (hR : hasDupSep relpath = false)
    (hne : ¬ (ex = true ∧ target.getLast? = some '/' ∧ relpath.head? = some '/')) :
    segs (computeTargetPath target rootName relpath ex)
      = segs target ++ (if ex = true then [] else [rootName]) ++ segs relpath
    ∧ hasDupSep (computeTargetPath target rootName relpath ex) = false := by
  unfold computeTargetPath
  cases ex with
  | true =>
    rw [if_neg (by simp)]
    constructor
    · rw [segs_join_step target relpath]
      simp
    · exact hasDupSep_join_step target relpath hT hR
        (fun hh => hne ⟨rfl, hh.1, hh.2⟩)
  | false =>
    rw [if_pos (by simp)]
    constructor
    · rw [segs_join_step _ relpath, segs_insert_root target rootName hr hs]
      simp [List.append_assoc]
    · exact hasDupSep_join_step _ relpath (insert_root_dup target rootName hT hs)
        hR (fun hh => (insert_root_getLast target rootName hr hs) hh.1)

/-- C2 witness: a concrete nested join with the base name inserted. -/
theorem computeTargetPath_spec_witness :
    segs (computeTargetPath ['/', 'b'] ['a'] ['/', 'f'] false)
      = segs ['/', 'b'] ++ [['a']] ++ segs ['/', 'f'] ∧
    hasDupSep (computeTargetPath ['/', 'b'] ['a'] ['/', 'f'] false) = false := by
  have h := computeTargetPath_spec ['/', 'b'] ['a'] ['/', 'f'] false
    (by decide) (by decide) (by decide) (by decide) (by decide) (by decide)
  simpa using h

end MbCopy
